import Mathlib

/-
  Verification of the PDAL ground-classification and KNN-assignment filters.

  Shallow embedding of:
  - KNNAssignFilter  (filters.knnassign) : KNN majority-vote reassignment
  - PMFFilter        (filters.pmf)       : progressive morphological filter

  Numeric model: point-dimension values and coordinates are modelled as
  rationals (the C++ code reads every dimension as double at the accessor
  boundary); machine integer casts are modelled by explicit truncation.
-/

namespace PDAL

/-- One point record.  The dimensions used by the two filters under
verification: X, Y, Z, Classification, ReturnNumber, NumberOfReturns.
Field access is modelled at the accessor boundary as rational-valued
(the C++ code uses `getFieldAs<double>`). -/
structure Point where
  x : ℚ
  y : ℚ
  z : ℚ
  classification : ℚ
  returnNumber : ℚ
  numberOfReturns : ℚ
  deriving DecidableEq, Repr, Inhabited

/-- Dimension identifiers, mirroring the `Dimension::Id` enumeration for the
dimensions in play.  `0` plays the role of `Dimension::Id::Unknown`. -/
def dimX : ℕ := 1
def dimY : ℕ := 2
def dimZ : ℕ := 3
def dimClassification : ℕ := 4
def dimReturnNumber : ℕ := 5
def dimNumberOfReturns : ℕ := 6

/-- Read a field by dimension identifier (`getFieldAs<double>`); an unknown
identifier reads as 0. -/
def Point.dimVal (p : Point) (d : ℕ) : ℚ :=
  if d = dimX then p.x
  else if d = dimY then p.y
  else if d = dimZ then p.z
  else if d = dimClassification then p.classification
  else if d = dimReturnNumber then p.returnNumber
  else if d = dimNumberOfReturns then p.numberOfReturns
  else 0

/-- A point view is the ordered in-memory point collection (`PointView`). -/
abbrev View := List Point

/-- A layout maps dimension names to identifiers (`PointLayout::findDim`
returns `Unknown` when absent, modelled by `Option`). -/
structure Layout where
  dims : List (String × ℕ)
  deriving DecidableEq, Repr

def Layout.findDim (l : Layout) (n : String) : Option ℕ :=
  (l.dims.find? (fun d => d.1 = n)).map (·.2)

def Layout.hasDim (l : Layout) (n : String) : Bool :=
  (l.findDim n).isSome

/-- The standard layout used in witnesses. -/
def stdLayout : Layout :=
  ⟨[("X", dimX), ("Y", dimY), ("Z", dimZ),
    ("Classification", dimClassification),
    ("ReturnNumber", dimReturnNumber),
    ("NumberOfReturns", dimNumberOfReturns)]⟩

/-! ## Domain ranges (DimRange)

The `DimRange` implementation (`private/DimRange.hpp`) is not among the
available sources; it is modelled from the spec (section 4.2): a textual
spec is a dimension name followed by a numeric interval, e.g.
`Classification[5,6)`; parsing fails on malformed text; `valuePasses`
is interval membership; ranges sort by resolved dimension identifier. -/

/-- An unresolved domain range: parsed text, name not yet bound. -/
structure RawRange where
  name : String
  lo : ℚ
  hi : ℚ
  loInc : Bool
  hiInc : Bool
  deriving DecidableEq, Repr

/-- A resolved domain range (`DimRange` after `prepared` bound `m_id`). -/
structure RRange where
  id : ℕ
  lo : ℚ
  hi : ℚ
  loInc : Bool
  hiInc : Bool
  deriving DecidableEq, Repr

/-- Modelled from the spec: `DimRange::valuePasses` — numeric interval
membership with inclusive/exclusive endpoints (section 4.2). -/
def RRange.valuePasses (r : RRange) (v : ℚ) : Bool :=
  (if r.loInc then decide (r.lo ≤ v) else decide (r.lo < v)) &&
  (if r.hiInc then decide (v ≤ r.hi) else decide (v < r.hi))

/-- Modelled from the spec: integer-literal scanner used by the domain-text
grammar (section 4.2 gives the grammar shape only; numeric literals are
modelled as optionally signed integers). -/
def scanInt : List Char → Option (ℤ × List Char)
  | [] => none
  | c :: cs =>
    let (neg, rest) := if c = '-' then (true, cs) else (false, c :: cs)
    let digits := rest.takeWhile Char.isDigit
    let rest2 := rest.dropWhile Char.isDigit
    if digits.isEmpty then none
    else
      let n : ℕ := digits.foldl (fun a d => a * 10 + (d.toNat - '0'.toNat)) 0
      some (if neg then -(n : ℤ) else (n : ℤ), rest2)

/-- Modelled from the spec: `DimRange::parse` — a dimension name followed by
one numeric interval constraint with `[`/`(` and `]`/`)` endpoint markers
(section 4.2); malformed text fails. -/
def parseRange (s : String) : Option RawRange :=
  let cs := s.toList
  let nm := cs.takeWhile Char.isAlpha
  let rest := cs.dropWhile Char.isAlpha
  if nm.isEmpty then none
  else
    match rest with
    | [] => none
    | b :: r1 =>
      if b ≠ '[' ∧ b ≠ '(' then none
      else
        match scanInt r1 with
        | none => none
        | some (lo, r2) =>
          match r2 with
          | ',' :: r3 =>
            match scanInt r3 with
            | none => none
            | some (hi, r4) =>
              match r4 with
              | [e] =>
                if e = ']' ∨ e = ')' then
                  some ⟨String.mk nm, (lo : ℚ), (hi : ℚ), b = '[', e = ']'⟩
                else none
              | _ => none
          | _ => none

/-! ## Spatial index

The KD-tree (`KDIndex.hpp`) is not among the available sources.
Modelled from the spec (section 4.1): `kNearest` returns `min(k, n)`
point identifiers ordered by ascending Euclidean distance, the query
point itself not excluded.  Ties in distance (left unspecified by the
spec) are determinized by ascending point identifier. -/

/-- Squared 3D Euclidean distance between two points. -/
def sqDist3 (p q : Point) : ℚ :=
  (p.x - q.x)^2 + (p.y - q.y)^2 + (p.z - q.z)^2

/-- Ordering used by the modelled index: ascending squared distance,
ties by ascending identifier. -/
def distLE (a b : ℕ × ℚ) : Prop :=
  a.2 < b.2 ∨ (a.2 = b.2 ∧ a.1 ≤ b.1)

instance : DecidableRel distLE := fun a b => by
  unfold distLE; infer_instance

/-- Modelled from the spec: `KD3Index::neighbors` (section 4.1). -/
def kNearest (ref : View) (p : Point) (k : ℕ) : List ℕ :=
  (((List.range ref.length).map
      (fun i => (i, sqDist3 (ref.getD i default) p))).insertionSort distLE).take k
    |>.map (·.1)

/-! ## KNNAssignFilter: majority vote -/

/-- Classification values of the reference points with the given
identifiers: the votes (KNNAssignFilter.cpp lines 117-124, with
`m_dim = Classification`). -/
def votesOf (ref : View) (ids : List ℕ) : List ℚ :=
  ids.map (fun i => (ref.getD i default).classification)

/-- Vote tally for one value, mirroring `counts[votefor]++`. -/
def tally (ref : View) (ids : List ℕ) (v : ℚ) : ℕ :=
  (votesOf ref ids).count v

/-- The distinct vote values in ascending order: iteration order of the
`std::map<double, unsigned int> counts`. -/
def voteKeys (ref : View) (ids : List ℕ) : List ℚ :=
  (votesOf ref ids).dedup.insertionSort (· ≤ ·)

/-- Fold mirroring `std::max_element` over the ordered map with comparator
`p1.second < p2.second`: the accumulator is replaced only by a strictly
greater count, so the first maximal entry in key order is kept. -/
def pickMax : List (ℚ × ℕ) → (ℚ × ℕ) → (ℚ × ℕ)
  | [], acc => acc
  | p :: ps, acc => pickMax ps (if acc.2 < p.2 then p else acc)

/-- Winner of the vote: value and count (KNNAssignFilter.cpp lines 126-129).
An empty tally (possible only for an empty reference view, where the C++
`max_element` call would be undefined) is given the neutral result (0, 0),
which leaves the point unchanged. -/
def voteWinner (ref : View) (ids : List ℕ) : ℚ × ℕ :=
  match voteKeys ref ids with
  | [] => (0, 0)
  | v :: vs =>
    pickMax (vs.map (fun w => (w, tally ref ids w))) (v, tally ref ids v)

/-- KNNAssignFilter::doOneNoDomain (lines 111-139): query `k` neighbors in
the reference view, tally their classification values, and overwrite the
point's classification with the winner when its count strictly exceeds
half the number of returned identifiers and it differs from the current
value. -/
def doOneNoDomain (ref : View) (view : View) (k : ℕ) (i : ℕ) : View :=
  let p := view.getD i default
  let ids := kNearest ref p k
  let thresh : ℚ := (ids.length : ℚ) / 2
  let w := voteWinner ref ids
  let oldclass := p.classification
  if (w.2 : ℚ) > thresh ∧ oldclass ≠ w.1 then
    view.set i { p with classification := w.1 }
  else view

/-- The domain-scanning loop of KNNAssignFilter::doOne (lines 147-154):
first range whose dimension value passes triggers the vote, then `break`. -/
def scanRanges (ranges : List RRange) (ref : View) (view : View)
    (k : ℕ) (i : ℕ) : View :=
  match ranges with
  | [] => view
  | r :: rs =>
    if r.valuePasses ((view.getD i default).dimVal r.id) then
      doOneNoDomain ref view k i
    else scanRanges rs ref view k i

/-- KNNAssignFilter::doOne (lines 141-156): with no domain every point is
processed; otherwise the sorted ranges are scanned first-match-wins. -/
def doOne (ranges : List RRange) (ref : View) (view : View)
    (k : ℕ) (i : ℕ) : View :=
  if ranges.isEmpty then doOneNoDomain ref view k i
  else scanRanges ranges ref view k i

/-- KNNAssignFilter::filter, self mode (lines 173-183): the index and the
vote source are the view being classified itself, so later points read
earlier reassignments.  Coordinates are never mutated, so re-deriving the
neighbor lists from the current view agrees with the index snapshot built
at entry. -/
def knnFilterSelf (ranges : List RRange) (k : ℕ) (view : View) : View :=
  (List.range view.length).foldl (fun v i => doOne ranges v v k i) view

/-- KNNAssignFilter::filter, candidate mode (lines 184-196): neighbors and
votes come from the separately loaded candidate view. -/
def knnFilterCand (ranges : List RRange) (k : ℕ) (cand : View)
    (view : View) : View :=
  (List.range view.length).foldl (fun v i => doOne ranges cand v k i) view

/-- The order-independent per-point map over the initial state: every
point's result is computed against an immutable snapshot of the inputs
(the spec's formulation in sections 4.3 and 5, used to compare against
the sequential in-place loop). -/
def knnSnapshotSelf (ranges : List RRange) (k : ℕ) (view : View) : View :=
  (List.range view.length).map
    (fun i => (doOne ranges view view k i).getD i default)

/-! ## KNNAssignFilter: configuration and setup -/

/-- Configuration errors raised by `throwError` during setup. -/
inductive ConfigError where
  | badDomainText (t : String)
  | badK (k : ℤ)
  | badDimName (n : String)
  deriving DecidableEq, Repr

/-- Options of the KNN filter: `domain` texts, `k`, and the candidate
file (modelled by an optional candidate view, since reading the file
materializes it fully before processing). -/
structure KnnConfig where
  domainSpec : List String
  k : ℤ
  candidate : Option View
  deriving DecidableEq, Repr

/-- The parse loop of KNNAssignFilter::initialize (lines 77-89): each
domain text is parsed in order; the first malformed text raises a
configuration error naming it. -/
def parseAll : List String → Except ConfigError (List RawRange)
  | [] => .ok []
  | t :: ts =>
    match parseRange t with
    | none => .error (.badDomainText t)
    | some r => (parseAll ts).map (r :: ·)

/-- KNNAssignFilter::initialize (lines 75-92): parse all domain texts,
then reject `k < 1`. -/
def knnInitialize (cfg : KnnConfig) : Except ConfigError (List RawRange) := do
  let rs ← parseAll cfg.domainSpec
  if cfg.k < 1 then .error (.badK cfg.k) else .ok rs

/-- The resolution loop of KNNAssignFilter::prepared (lines 97-103): each
range's dimension name is looked up in the layout; `Unknown` raises a
configuration error naming it. -/
def resolveAll (layout : Layout) : List RawRange → Except ConfigError (List RRange)
  | [] => .ok []
  | r :: rs =>
    match layout.findDim r.name with
    | none => .error (.badDimName r.name)
    | some d => (resolveAll layout rs).map (⟨d, r.lo, r.hi, r.loInc, r.hiInc⟩ :: ·)

/-- Ordering used by `std::sort(m_domain.begin(), m_domain.end())`:
modelled from the spec (section 3), ranges sort by resolved dimension
identifier. -/
def rangeLE (a b : RRange) : Prop := a.id ≤ b.id

instance : DecidableRel rangeLE := fun a b => by
  unfold rangeLE; infer_instance

/-- KNNAssignFilter::prepared (lines 93-109): resolve every range, then
sort by dimension identifier. -/
def knnPrepared (layout : Layout) (rs : List RawRange) :
    Except ConfigError (List RRange) :=
  (resolveAll layout rs).map (fun l => l.insertionSort rangeLE)

/-- Full setup: initialize then prepared. -/
def knnSetup (cfg : KnnConfig) (layout : Layout) :
    Except ConfigError (List RRange) := do
  let rs ← knnInitialize cfg
  knnPrepared layout rs

/-- A whole invocation of the KNN filter: setup, then the per-point loop
(self mode or candidate mode depending on the `candidate` option).  A
setup failure yields an error and no output view. -/
def knnRun (cfg : KnnConfig) (layout : Layout) (view : View) :
    Except ConfigError View :=
  (knnSetup cfg layout).map (fun ranges =>
    match cfg.candidate with
    | none => knnFilterSelf ranges cfg.k.toNat view
    | some cand => knnFilterCand ranges cfg.k.toNat cand view)

/-! ## PMFFilter: configuration -/

/-- Options of the PMF filter with their defaults (PMFFilter.cpp lines
63-74).  The `ignore` option is an optional unresolved range. -/
structure PmfConfig where
  cellSize : ℚ
  exponential : Bool
  ignored : Option RawRange
  initialDistance : ℚ
  lastOnly : Bool
  maxDistance : ℚ
  maxWindowSize : ℚ
  slope : ℚ
  deriving DecidableEq, Repr

/-- The stated defaults of the PMF options. -/
def pmfDefaults : PmfConfig :=
  { cellSize := 1, exponential := true, ignored := none,
    initialDistance := 3/20, lastOnly := true, maxDistance := 5/2,
    maxWindowSize := 33, slope := 1 }

/-- State of the PMF filter after `prepared` ran. -/
structure PmfPrepared where
  cfg : PmfConfig
  ignoreId : Option RRange
  lastOnly : Bool
  deriving DecidableEq, Repr

/-- PMFFilter::prepared (lines 81-99): resolve the ignore range's name
(an unknown name leaves it unresolved, it is not an error), and degrade
`last` to false with a warning when the return-metadata dimensions are
missing.  No option value is validated here or in addArgs; in particular
`cell_size` is never checked, so this function cannot raise a
configuration error. -/
def pmfPrepared (cfg : PmfConfig) (layout : Layout) :
    Except ConfigError PmfPrepared :=
  .ok
    { cfg := cfg
      ignoreId := cfg.ignored.bind (fun r =>
        (layout.findDim r.name).map
          (fun d => ⟨d, r.lo, r.hi, r.loInc, r.hiInc⟩))
      lastOnly := cfg.lastOnly &&
        (layout.hasDim "ReturnNumber" && layout.hasDim "NumberOfReturns") }

/-! ## PMFFilter: rasterization -/

/-- Truncation toward zero of a rational, modelling the C++ conversions
`static_cast<int>` and `static_cast<size_t>` applied to a double. -/
def truncQ (q : ℚ) : ℤ := Int.tdiv q.num (q.den : ℤ)

/-- Bounding box of a view (`PointView::calculateBounds`), as
(minx, maxx, miny, maxy); meaningful for nonempty views. -/
def bboxStep (b : ℚ × ℚ × ℚ × ℚ) (q : Point) : ℚ × ℚ × ℚ × ℚ :=
  (min b.1 q.x, max b.2.1 q.x, min b.2.2.1 q.y, max b.2.2.2 q.y)

def calcBounds (view : View) : ℚ × ℚ × ℚ × ℚ :=
  match view with
  | [] => (0, 0, 0, 0)
  | p :: ps => ps.foldl bboxStep (p.x, p.x, p.y, p.y)

/-- Column count of the raster (PMFFilter.cpp line 146):
`size_t cols = ((bounds.maxx - bounds.minx) / m_cellSize) + 1;` — a
double-to-size_t conversion, i.e. truncation, not a ceiling. -/
def rasterCols (view : View) (cell : ℚ) : ℕ :=
  let b := calcBounds view
  (truncQ ((b.2.1 - b.1) / cell + 1)).toNat

/-- Row count of the raster (PMFFilter.cpp line 147). -/
def rasterRows (view : View) (cell : ℚ) : ℕ :=
  let b := calcBounds view
  (truncQ ((b.2.2.2 - b.2.2.1) / cell + 1)).toNat

/-- Cell coordinate used while binning points into the raster
(PMFFilter.cpp lines 160-161):
`static_cast<int>(floor(x - bounds.minx) / m_cellSize)` — note the
parenthesization: the `floor` applies to the offset alone, and the
division's result is truncated by the int cast. -/
def binRaster (cell : ℚ) (origin : ℚ) (coord : ℚ) : ℤ :=
  truncQ ((⌊coord - origin⌋ : ℚ) / cell)

/-- Cell coordinate used during progressive filtering (PMFFilter.cpp
lines 269-270): `static_cast<int>(floor((x - bounds.minx) / m_cellSize))`
— the `floor` applies to the quotient, and the int cast of an
already-floored value is exact. -/
def binProg (cell : ℚ) (origin : ℚ) (coord : ℚ) : ℤ :=
  ⌊(coord - origin) / cell⌋

/-- Flat surface index of a point during rasterization (line 162):
`idx = c * rows + r`. -/
def rasterIdx (view : View) (cell : ℚ) (p : Point) : ℕ :=
  let b := calcBounds view
  (binRaster cell b.1 p.x).toNat * rasterRows view cell +
    (binRaster cell b.2.2.1 p.y).toNat

/-- Flat surface index of a point during progressive filtering
(line 272): `mo[c * rows + r]`. -/
def progIdx (view : View) (cell : ℚ) (p : Point) : ℕ :=
  let b := calcBounds view
  (binProg cell b.1 p.x).toNat * rasterRows view cell +
    (binProg cell b.2.2.1 p.y).toNat

/-- Minimum-elevation surface (PMFFilter.cpp lines 150-165): one cell per
(column, row) pair at flat index `c * rows + r`, `none` marking the NaN
initialization; each point lowers its cell to the minimum Z seen. -/
def binPoints (view : View) (cell : ℚ) : List (Option ℚ) :=
  let rows := rasterRows view cell
  let cols := rasterCols view cell
  view.foldl
    (fun s p =>
      let idx := rasterIdx view cell p
      s.set idx
        (match s.getD idx none with
         | none => some p.z
         | some w => if p.z < w then some p.z else some w))
    (List.replicate (rows * cols) none)

/-- Centers of the populated cells with their minimum elevations, in the
(column, row) iteration order of PMFFilter.cpp lines 170-184. -/
def cellCenters (view : View) (cell : ℚ) : List (ℚ × ℚ × ℚ) :=
  let rows := rasterRows view cell
  let cols := rasterCols view cell
  let b := calcBounds view
  let s := binPoints view cell
  ((List.range cols).map (fun c =>
    (List.range rows).filterMap (fun r =>
      match s.getD (c * rows + r) none with
      | none => none
      | some z =>
        some (b.1 + ((c : ℚ) + 1/2) * cell, b.2.2.1 + ((r : ℚ) + 1/2) * cell, z)))).flatten

/-- Modelled from the spec: the 2D nearest-neighbor query of the gap-fill
pass (`KD2Index::knnSearch` with k = 1 is not among the available
sources; section 4.4 specifies the single nearest populated cell center).
Ties, unspecified by the spec, keep the earliest center in construction
order.  An empty center list (impossible for a nonempty view) yields 0. -/
def nearestZ (centers : List (ℚ × ℚ × ℚ)) (x y : ℚ) : ℚ :=
  match centers with
  | [] => 0
  | c :: cs =>
    (cs.foldl
      (fun best q =>
        if (q.1 - x)^2 + (q.2.1 - y)^2 < (best.1 - x)^2 + (best.2.1 - y)^2
        then q else best) c).2.2

/-- Gap filling (PMFFilter.cpp lines 192-210): every empty cell receives
the elevation of its nearest populated cell center, yielding a dense
surface. -/
def fillSurface (view : View) (cell : ℚ) : List ℚ :=
  let rows := rasterRows view cell
  let cols := rasterCols view cell
  let b := calcBounds view
  let s := binPoints view cell
  let centers := cellCenters view cell
  ((List.range cols).map (fun c =>
    (List.range rows).map (fun r =>
      match s.getD (c * rows + r) none with
      | some z => z
      | none =>
        nearestZ centers (b.1 + ((c : ℚ) + 1/2) * cell)
          (b.2.2.1 + ((r : ℚ) + 1/2) * cell)))).flatten

/-! ## PMFFilter: morphological opening

The `eigen::erodeDiamond` and `eigen::dilateDiamond` helpers are not
among the available sources.  Modelled from the spec (section 4.4 step 1
and the glossary): each cell maps to the minimum (erosion) or maximum
(dilation) over the diamond-shaped neighborhood of the given radius,
clipped to the grid. -/

/-- Shared traversal of a diamond neighborhood of the given radius,
combining in-bounds cell values with `op` starting from the cell's own
value. -/
def diamondMap (op : ℚ → ℚ → ℚ) (s : List ℚ) (rows cols radius : ℕ) :
    List ℚ :=
  ((List.range cols).map (fun (c : ℕ) =>
    (List.range rows).map (fun (r : ℕ) =>
      (List.range (2 * radius + 1)).foldl
        (fun acc dc =>
          let ci : ℤ := (c : ℤ) + (dc : ℤ) - (radius : ℤ)
          (List.range (2 * radius + 1)).foldl
            (fun acc2 dr =>
              let ri : ℤ := (r : ℤ) + (dr : ℤ) - (radius : ℤ)
              if ((dc : ℤ) - radius).natAbs + ((dr : ℤ) - radius).natAbs ≤ radius
                  ∧ 0 ≤ ci ∧ ci < (cols : ℤ) ∧ 0 ≤ ri ∧ ri < (rows : ℤ) then
                op acc2 (s.getD (ci.toNat * rows + ri.toNat) 0)
              else acc2)
            acc)
        (s.getD (c * rows + r) 0)))).flatten

/-- Modelled from the spec: `eigen::erodeDiamond`. -/
def erodeDiamond (s : List ℚ) (rows cols radius : ℕ) : List ℚ :=
  diamondMap min s rows cols radius

/-- Modelled from the spec: `eigen::dilateDiamond`. -/
def dilateDiamond (s : List ℚ) (rows cols radius : ℕ) : List ℚ :=
  diamondMap max s rows cols radius

/-! ## PMFFilter: scale sequence -/

/-- Window size at iteration `i` (PMFFilter.cpp lines 228-231):
`cell_size * (2 * 2^i + 1)` when exponential, else
`cell_size * (2 * (i+1) * 2 + 1)`. -/
def wsF (cfg : PmfConfig) (i : ℕ) : ℚ :=
  if cfg.exponential then cfg.cellSize * (2 * 2 ^ i + 1)
  else cfg.cellSize * (2 * ((i : ℚ) + 1) * 2 + 1)

/-- Unclamped height threshold (PMFFilter.cpp lines 234-238):
`initial_distance` at iteration 0, else
`slope * (ws[i] - ws[i-1]) * cell_size + initial_distance`. -/
def htRaw (cfg : PmfConfig) : ℕ → ℚ
  | 0 => cfg.initialDistance
  | i + 1 => cfg.slope * (wsF cfg (i + 1) - wsF cfg i) * cfg.cellSize +
      cfg.initialDistance

/-- Height threshold after the max-distance clamp (lines 241-242). -/
def htF (cfg : PmfConfig) (i : ℕ) : ℚ :=
  if htRaw cfg i > cfg.maxDistance then cfg.maxDistance else htRaw cfg i

/-- The precomputation loop (PMFFilter.cpp lines 220-248): starting from
`ws = 0`, one (window, threshold) pair is pushed per iteration while the
previous window size is below `max_window_size`.  The loop is modelled
with explicit fuel; for any `cell_size > 0` the source loop terminates
and a large enough fuel reproduces it exactly. -/
def pmfSeqAux (cfg : PmfConfig) : ℕ → ℕ → ℚ → List (ℚ × ℚ)
  | 0, _, _ => []
  | fuel + 1, i, ws =>
    if ws < cfg.maxWindowSize then
      (wsF cfg i, htF cfg i) :: pmfSeqAux cfg fuel (i + 1) (wsF cfg i)
    else []

def pmfSeq (cfg : PmfConfig) (fuel : ℕ) : List (ℚ × ℚ) :=
  pmfSeqAux cfg fuel 0 0

/-- Structuring-element radius (PMFFilter.cpp line 257):
`int iters = 0.5 * (wsvec[j] - 1);` — float product truncated by the int
conversion. -/
def pmfRadius (ws : ℚ) : ℕ := (truncQ ((ws - 1) / 2)).toNat

/-! ## PMFFilter: processGround and run -/

/-- PMFFilter::processGround (lines 141-290): rasterize, gap-fill,
precompute the scale sequence, progressively filter the candidate set
through morphological openings, and relabel the survivors as ground
(classification 2).  The empty view is returned unchanged (the source
assumes a nonempty participating subset; see section 4.4's degenerate
cases). -/
def processGround (pc : PmfPrepared) (view : View) : View :=
  if view.isEmpty then view
  else
    let cell := pc.cfg.cellSize
    let rows := rasterRows view cell
    let cols := rasterCols view cell
    let dense := fillSurface view cell
    let result :=
      (pmfSeq pc.cfg 64).foldl
        (fun (st : List ℕ × List ℚ) wh =>
          let rad := pmfRadius wh.1
          let me := erodeDiamond st.2 rows cols rad
          let mo := dilateDiamond me rows cols rad
          let newIdx := st.1.filter (fun i =>
            let p := view.getD i default
            p.z - mo.getD (progIdx view cell p) 0 < wh.2)
          (newIdx, mo))
        (List.range view.length, dense)
    (List.range view.length).map (fun i =>
      let p := view.getD i default
      if result.1.contains i then { p with classification := 2 } else p)

/-- Modelled from the spec: `Segmentation::ignoreDimRange` (not among the
available sources) — split a view into (kept, ignored) by the resolved
range (section 4.4 preprocessing step 1). -/
def ignoreSplit (r : RRange) (input : View) : View × View :=
  (input.filter (fun p => !r.valuePasses (p.dimVal r.id)),
   input.filter (fun p => r.valuePasses (p.dimVal r.id)))

/-- Modelled from the spec: a last return has ReturnNumber equal to
NumberOfReturns (section 4.4 preprocessing step 3). -/
def isLastReturn (p : Point) : Bool := p.returnNumber == p.numberOfReturns

/-- Modelled from the spec: `Segmentation::segmentLastReturns` (not among
the available sources) — split a view into (last, other-than-last). -/
def segmentLast (input : View) : View × View :=
  (input.filter isLastReturn, input.filter (fun p => !isLastReturn p))

/-- Points split off by the ignore range (held aside untouched). -/
def pmfIgnored (pc : PmfPrepared) (input : View) : View :=
  match pc.ignoreId with
  | none => []
  | some r => (ignoreSplit r input).2

/-- Points that remain after the ignore split. -/
def pmfKept (pc : PmfPrepared) (input : View) : View :=
  match pc.ignoreId with
  | none => input
  | some r => (ignoreSplit r input).1

/-- The kept points after the classification reset of PMFFilter.cpp lines
117-118: every kept point's classification is set to 1 before the
last-return split. -/
def pmfMarked (pc : PmfPrepared) (input : View) : View :=
  (pmfKept pc input).map (fun p => { p with classification := 1 })

/-- The subset participating in ground detection. -/
def pmfLast (pc : PmfPrepared) (input : View) : View :=
  if pc.lastOnly then (segmentLast (pmfMarked pc input)).1
  else pmfMarked pc input

/-- The other-than-last-return subset, which bypasses ground detection. -/
def pmfNonlast (pc : PmfPrepared) (input : View) : View :=
  if pc.lastOnly then (segmentLast (pmfMarked pc input)).2 else []

/-- PMFFilter::run (lines 101-139): empty input yields no views;
otherwise ignore split, classification reset to 1, last-return split,
processGround on the last-return subset, and concatenation
ignored ++ nonlast ++ processed. -/
def pmfRun (pc : PmfPrepared) (input : View) : List View :=
  if input.isEmpty then []
  else
    [pmfIgnored pc input ++ pmfNonlast pc input ++
      processGround pc (pmfLast pc input)]

/-! ## Spec-side formulations used for refinement comparisons -/

/-- The spec's eligibility formulation (section 4.3 steps 1-2): with no
ranges every point is voted on; otherwise the first range whose
dimension value passes makes the point eligible exactly once, and a
point passing no range is untouched. -/
def eligibleStep (ranges : List RRange) (ref : View) (view : View)
    (k : ℕ) (i : ℕ) : View :=
  if ranges.isEmpty then doOneNoDomain ref view k i
  else
    match ranges.find?
        (fun r => r.valuePasses ((view.getD i default).dimVal r.id)) with
    | some _ => doOneNoDomain ref view k i
    | none => view

/-- The order-independent per-point map over the initial state in
candidate mode: every point's result is computed from the immutable
candidate view and the initial input view. -/
def knnSnapshotCand (ranges : List RRange) (k : ℕ) (cand : View)
    (view : View) : View :=
  (List.range view.length).map
    (fun i => (doOne ranges cand view k i).getD i default)

instance : IsTotal RRange rangeLE :=
  ⟨fun a b => Nat.le_total a.id b.id⟩

instance : IsTrans RRange rangeLE :=
  ⟨fun _ _ _ h1 h2 => Nat.le_trans h1 h2⟩

/-! # Shared helper lemmas -/

/-- Truncation toward zero agrees with the floor on nonnegative
rationals. -/
lemma truncQ_eq_floor {q : ℚ} (h : 0 ≤ q) : truncQ q = ⌊q⌋ := by
  unfold truncQ
  rw [Int.tdiv_eq_ediv (Rat.num_nonneg.2 h) (by positivity)]
  exact Rat.floor_def.symm

/-! # Claim theorems -/

unseal Rat.add Rat.mul Rat.sub Rat.inv in
/-- Claim C1, counterexample.  With k = 5 over a reference set of only 3
points, `doOneNoDomain` reassigns point 0 from 1 to 7 on a winning count
of 2, although 2 is not a strict majority of k (2 > 5/2 is false): the
threshold the code uses is half the number of returned neighbor
identifiers (min(k, n) = 3), not half of k. -/
theorem claim1_counterexample :
    let view : View := [⟨0, 0, 0, 1, 1, 1⟩, ⟨1, 0, 0, 7, 1, 1⟩, ⟨2, 0, 0, 7, 1, 1⟩]
    ((doOneNoDomain view view 5 0).getD 0 default).classification = 7 ∧
    (view.getD 0 default).classification = 1 ∧
    (voteWinner view (kNearest view (view.getD 0 default) 5)).2 = 2 ∧
    ¬(((2 : ℕ) : ℚ) > (5 : ℚ) / 2) := by decide

unseal Rat.add Rat.mul Rat.sub Rat.inv in
/-- Claim C2, counterexample.  A not-last-return point (ReturnNumber 1 of
NumberOfReturns 2) with Classification 5 is emitted with Classification
overwritten to 1: the classification reset of PMFFilter::run happens
before the last-return split, so the other-than-last subset does not
pass through unmodified. -/
theorem claim2_counterexample :
    let p : Point := ⟨0, 0, 0, 5, 1, 2⟩
    let pc : PmfPrepared := ⟨pmfDefaults, none, true⟩
    isLastReturn p = false ∧
    pmfRun pc [p] = [[{ p with classification := 1 }]] ∧
    ({ p with classification := 1 } : Point) ≠ p := by decide

unseal Rat.add Rat.mul Rat.sub Rat.inv in
/-- Claim C3, counterexample.  Two points spanning extentX = 5/2 with
cell_size 1: the code computes 3 columns (double-to-size_t truncation),
while ceil(5/2) + 1 = 4. -/
theorem claim3_counterexample :
    let view : View := [⟨0, 0, 0, 1, 1, 1⟩, ⟨5/2, 0, 0, 1, 1, 1⟩]
    rasterCols view 1 = 3 ∧
    (⌈((calcBounds view).2.1 - (calcBounds view).1) / 1⌉).toNat + 1 = 4 := by
  decide

/-- Claim C4: PMFFilter performs no validation of `cell_size` anywhere in
addArgs or prepared — `prepared` succeeds for any configuration,
including a non-positive cell size, and the filter proceeds to divide by
`cell_size` in processGround. -/
theorem claim4_nocheck (cfg : PmfConfig) (layout : Layout)
    (_h : cfg.cellSize ≤ 0) : ∃ pr, pmfPrepared cfg layout = .ok pr :=
  ⟨_, rfl⟩

theorem claim4_witness :
    ({ pmfDefaults with cellSize := 0 } : PmfConfig).cellSize ≤ 0 ∧
    ∃ pr, pmfPrepared { pmfDefaults with cellSize := 0 } stdLayout = .ok pr :=
  ⟨by decide, claim4_nocheck { pmfDefaults with cellSize := 0 } stdLayout (by decide)⟩

unseal Rat.add Rat.mul Rat.sub Rat.inv in
/-- Claim C5, counterexample.  In self mode the vote source is the view
being mutated: on this 5-point line the sequential loop ends with every
classification 7, while the order-independent map over the initial
snapshot reassigns point 3 to 0 instead — the sequential in-place loop
is not equivalent to the snapshot map. -/
theorem claim5_counterexample :
    let view : View := [⟨0, 0, 0, 7, 1, 1⟩, ⟨2, 0, 0, 7, 1, 1⟩,
      ⟨3, 0, 0, 0, 1, 1⟩, ⟨4, 0, 0, 7, 1, 1⟩, ⟨5, 0, 0, 0, 1, 1⟩]
    knnFilterSelf [] 3 view ≠ knnSnapshotSelf [] 3 view := by decide

unseal Rat.add Rat.mul Rat.sub Rat.inv in
/-- Claim C8, counterexample.  With slope = -1 (all other options at their
defaults) the precomputed height thresholds strictly decrease between
the first two generated iterations. -/
theorem claim8_counterexample :
    let cfg : PmfConfig := { pmfDefaults with slope := -1 }
    (pmfSeq cfg 64).take 2 = [(3, 3/20), (5, -37/20)] ∧
    ¬(((3 : ℚ) / 20) ≤ -37/20) := by decide

/-! ### Bounding-box helper lemmas -/

lemma bboxFold_minx_le (ps : View) (b : ℚ × ℚ × ℚ × ℚ) :
    (ps.foldl bboxStep b).1 ≤ b.1 := by
  induction ps generalizing b with
  | nil => exact le_refl _
  | cons q qs ih =>
    exact le_trans (ih (bboxStep b q)) (min_le_left _ _)

lemma bboxFold_maxx_ge (ps : View) (b : ℚ × ℚ × ℚ × ℚ) :
    b.2.1 ≤ (ps.foldl bboxStep b).2.1 := by
  induction ps generalizing b with
  | nil => exact le_refl _
  | cons q qs ih =>
    exact le_trans (le_max_left _ _) (ih (bboxStep b q))

lemma bboxFold_miny_le (ps : View) (b : ℚ × ℚ × ℚ × ℚ) :
    (ps.foldl bboxStep b).2.2.1 ≤ b.2.2.1 := by
  induction ps generalizing b with
  | nil => exact le_refl _
  | cons q qs ih =>
    exact le_trans (ih (bboxStep b q)) (min_le_left _ _)

lemma bboxFold_maxy_ge (ps : View) (b : ℚ × ℚ × ℚ × ℚ) :
    b.2.2.2 ≤ (ps.foldl bboxStep b).2.2.2 := by
  induction ps generalizing b with
  | nil => exact le_refl _
  | cons q qs ih =>
    exact le_trans (le_max_left _ _) (ih (bboxStep b q))

lemma bboxFold_mem (ps : View) (b : ℚ × ℚ × ℚ × ℚ) {q : Point}
    (hq : q ∈ ps) :
    (ps.foldl bboxStep b).1 ≤ q.x ∧ q.x ≤ (ps.foldl bboxStep b).2.1 ∧
    (ps.foldl bboxStep b).2.2.1 ≤ q.y ∧ q.y ≤ (ps.foldl bboxStep b).2.2.2 := by
  induction ps generalizing b with
  | nil => cases hq
  | cons a as ih =>
    rcases List.mem_cons.1 hq with h | h
    · subst h
      refine ⟨?_, ?_, ?_, ?_⟩
      · exact le_trans (bboxFold_minx_le as (bboxStep b q)) (min_le_right _ _)
      · exact le_trans (le_max_right _ _) (bboxFold_maxx_ge as (bboxStep b q))
      · exact le_trans (bboxFold_miny_le as (bboxStep b q)) (min_le_right _ _)
      · exact le_trans (le_max_right _ _) (bboxFold_maxy_ge as (bboxStep b q))
    · exact ih (bboxStep b a) h

/-- Every point of a view lies inside its computed bounding box. -/
lemma calcBounds_mem {view : View} {p : Point} (hp : p ∈ view) :
    (calcBounds view).1 ≤ p.x ∧ p.x ≤ (calcBounds view).2.1 ∧
    (calcBounds view).2.2.1 ≤ p.y ∧ p.y ≤ (calcBounds view).2.2.2 := by
  cases view with
  | nil => cases hp
  | cons a as =>
    rcases List.mem_cons.1 hp with h | h
    · subst h
      exact ⟨bboxFold_minx_le as _, bboxFold_maxx_ge as _,
        bboxFold_miny_le as _, bboxFold_maxy_ge as _⟩
    · exact bboxFold_mem as _ h

/-- For a nonempty view the bounding box is well formed. -/
lemma calcBounds_le {view : View} (h : view ≠ []) :
    (calcBounds view).1 ≤ (calcBounds view).2.1 ∧
    (calcBounds view).2.2.1 ≤ (calcBounds view).2.2.2 := by
  cases view with
  | nil => exact absurd rfl h
  | cons a as =>
    have := calcBounds_mem (List.mem_cons_self a as)
    exact ⟨le_trans this.1 this.2.1, le_trans this.2.2.1 this.2.2.2⟩

/-- The raster column count in closed floor form: for a nonempty view and
positive cell size, `cols = floor(extentX / cell) + 1`. -/
lemma rasterCols_eq {view : View} {cell : ℚ} (hne : view ≠ [])
    (hc : 0 < cell) :
    rasterCols view cell =
      (⌊((calcBounds view).2.1 - (calcBounds view).1) / cell⌋).toNat + 1 := by
  have hx : (0 : ℚ) ≤ (calcBounds view).2.1 - (calcBounds view).1 :=
    sub_nonneg.2 (calcBounds_le hne).1
  have hq : (0 : ℚ) ≤ ((calcBounds view).2.1 - (calcBounds view).1) / cell :=
    div_nonneg hx hc.le
  have h1 : (0 : ℤ) ≤ ⌊((calcBounds view).2.1 - (calcBounds view).1) / cell⌋ :=
    Int.floor_nonneg.2 hq
  show (truncQ (((calcBounds view).2.1 - (calcBounds view).1) / cell + 1)).toNat = _
  rw [truncQ_eq_floor (by linarith), Int.floor_add_one]
  omega

/-- The raster row count in closed floor form. -/
lemma rasterRows_eq {view : View} {cell : ℚ} (hne : view ≠ [])
    (hc : 0 < cell) :
    rasterRows view cell =
      (⌊((calcBounds view).2.2.2 - (calcBounds view).2.2.1) / cell⌋).toNat + 1 := by
  have hy : (0 : ℚ) ≤ (calcBounds view).2.2.2 - (calcBounds view).2.2.1 :=
    sub_nonneg.2 (calcBounds_le hne).2
  have hq : (0 : ℚ) ≤ ((calcBounds view).2.2.2 - (calcBounds view).2.2.1) / cell :=
    div_nonneg hy hc.le
  have h1 : (0 : ℤ) ≤ ⌊((calcBounds view).2.2.2 - (calcBounds view).2.2.1) / cell⌋ :=
    Int.floor_nonneg.2 hq
  show (truncQ (((calcBounds view).2.2.2 - (calcBounds view).2.2.1) / cell + 1)).toNat = _
  rw [truncQ_eq_floor (by linarith), Int.floor_add_one]
  omega

/-- Claim C3, amended: the grid has `floor(extentX / cell_size) + 1`
columns and `floor(extentY / cell_size) + 1` rows (truncating division,
not a ceiling). -/
theorem claim3_amended (view : View) (cell : ℚ) (hne : view ≠ [])
    (hc : 0 < cell) :
    rasterCols view cell =
      (⌊((calcBounds view).2.1 - (calcBounds view).1) / cell⌋).toNat + 1 ∧
    rasterRows view cell =
      (⌊((calcBounds view).2.2.2 - (calcBounds view).2.2.1) / cell⌋).toNat + 1 :=
  ⟨rasterCols_eq hne hc, rasterRows_eq hne hc⟩

theorem claim3_witness :
    (([⟨0, 0, 0, 1, 1, 1⟩] : View) ≠ [] ∧ (0 : ℚ) < 1) ∧
    (rasterCols [⟨0, 0, 0, 1, 1, 1⟩] 1 =
      (⌊((calcBounds [⟨0, 0, 0, 1, 1, 1⟩]).2.1 -
          (calcBounds [⟨0, 0, 0, 1, 1, 1⟩]).1) / 1⌋).toNat + 1 ∧
     rasterRows [⟨0, 0, 0, 1, 1, 1⟩] 1 =
      (⌊((calcBounds [⟨0, 0, 0, 1, 1, 1⟩]).2.2.2 -
          (calcBounds [⟨0, 0, 0, 1, 1, 1⟩]).2.2.1) / 1⌋).toNat + 1) :=
  ⟨⟨by simp, by norm_num⟩,
    claim3_amended [⟨0, 0, 0, 1, 1, 1⟩] 1 (by simp) (by norm_num)⟩

unseal Rat.add Rat.mul Rat.sub Rat.inv in
/-- Claim C10, counterexample.  With cell_size = 1/2 and a point at
offset 3/4 from the minimum, the rasterization index (floor applied
before the division) is 0 while the progressive-filtering index (floor
applied after the division) is 1. -/
theorem claim10_counterexample :
    let view : View := [⟨0, 0, 0, 1, 1, 1⟩, ⟨3/4, 0, 0, 1, 1, 1⟩]
    rasterIdx view (1/2) ⟨3/4, 0, 0, 1, 1, 1⟩ = 0 ∧
    progIdx view (1/2) ⟨3/4, 0, 0, 1, 1, 1⟩ = 1 := by decide

/-- Truncation of an integer-valued rational is exact. -/
lemma truncQ_intCast (z : ℤ) : truncQ (z : ℚ) = z := by
  unfold truncQ
  rw [Rat.num_intCast, Rat.den_intCast]
  norm_num

lemma natIdx_lt {a b A B : ℕ} (ha : a < A) (hb : b < B) :
    a * B + b < A * B :=
  calc a * B + b < a * B + B := by omega
  _ = (a + 1) * B := by ring
  _ ≤ A * B := Nat.mul_le_mul_right _ ha

/-- Bounds on the rasterization cell coordinate: it is nonnegative and at
most the floor of extent/cell. -/
lemma binRaster_le {cell org coord m : ℚ} (hc : 0 < cell)
    (h0 : org ≤ coord) (h1 : coord ≤ m) :
    0 ≤ binRaster cell org coord ∧
    binRaster cell org coord ≤ ⌊(m - org) / cell⌋ := by
  have hd : (0 : ℚ) ≤ coord - org := sub_nonneg.2 h0
  have hfl : (0 : ℚ) ≤ (⌊coord - org⌋ : ℚ) := by
    exact_mod_cast Int.floor_nonneg.2 hd
  have hquot : (0 : ℚ) ≤ (⌊coord - org⌋ : ℚ) / cell := div_nonneg hfl hc.le
  unfold binRaster
  rw [truncQ_eq_floor hquot]
  refine ⟨Int.floor_nonneg.2 hquot, Int.floor_le_floor ?_⟩
  exact div_le_div_of_nonneg_right
    (le_trans (Int.floor_le _) (by linarith)) hc.le

/-- Claim C10, amended: for a point of the subset and positive cell size
the rasterization index is in bounds (idx < rows * cols), and when
cell_size = 1 it coincides with the progressive-filtering index; for
fractional cell sizes the two indices can differ (see the
counterexample). -/
theorem claim10_amended (view : View) (cell : ℚ) (p : Point)
    (hp : p ∈ view) (hc : 0 < cell) :
    rasterIdx view cell p < rasterRows view cell * rasterCols view cell ∧
    (cell = 1 → rasterIdx view cell p = progIdx view cell p) := by
  have hne : view ≠ [] := by intro h; subst h; cases hp
  obtain ⟨hminx, hmaxx, hminy, hmaxy⟩ := calcBounds_mem hp
  have hxb := binRaster_le hc hminx hmaxx
  have hyb := binRaster_le hc hminy hmaxy
  have hcols := rasterCols_eq hne hc
  have hrows := rasterRows_eq hne hc
  have hcx : (binRaster cell (calcBounds view).1 p.x).toNat <
      rasterCols view cell := by
    rw [hcols]; have h2 := hxb.2; omega
  have hry : (binRaster cell (calcBounds view).2.2.1 p.y).toNat <
      rasterRows view cell := by
    rw [hrows]; have h2 := hyb.2; omega
  constructor
  · show (binRaster cell (calcBounds view).1 p.x).toNat * rasterRows view cell +
      (binRaster cell (calcBounds view).2.2.1 p.y).toNat <
      rasterRows view cell * rasterCols view cell
    rw [Nat.mul_comm (rasterRows view cell) (rasterCols view cell)]
    exact natIdx_lt hcx hry
  · intro hcell
    subst hcell
    have hcomp : ∀ org coord : ℚ, binRaster 1 org coord = binProg 1 org coord := by
      intro org coord
      unfold binRaster binProg
      rw [div_one, div_one, truncQ_intCast]
    show (binRaster 1 (calcBounds view).1 p.x).toNat * rasterRows view 1 +
        (binRaster 1 (calcBounds view).2.2.1 p.y).toNat =
      (binProg 1 (calcBounds view).1 p.x).toNat * rasterRows view 1 +
        (binProg 1 (calcBounds view).2.2.1 p.y).toNat
    rw [hcomp, hcomp]

theorem claim10_witness :
    ((⟨0, 0, 0, 1, 1, 1⟩ : Point) ∈ ([⟨0, 0, 0, 1, 1, 1⟩] : View) ∧
      (0 : ℚ) < 1) ∧
    (rasterIdx [⟨0, 0, 0, 1, 1, 1⟩] 1 ⟨0, 0, 0, 1, 1, 1⟩ <
        rasterRows [⟨0, 0, 0, 1, 1, 1⟩] 1 * rasterCols [⟨0, 0, 0, 1, 1, 1⟩] 1 ∧
      ((1 : ℚ) = 1 →
        rasterIdx [⟨0, 0, 0, 1, 1, 1⟩] 1 ⟨0, 0, 0, 1, 1, 1⟩ =
          progIdx [⟨0, 0, 0, 1, 1, 1⟩] 1 ⟨0, 0, 0, 1, 1, 1⟩)) :=
  ⟨⟨List.mem_singleton.2 rfl, by norm_num⟩,
    claim10_amended [⟨0, 0, 0, 1, 1, 1⟩] 1 ⟨0, 0, 0, 1, 1, 1⟩
      (List.mem_singleton.2 rfl) (by norm_num)⟩

/-! ### Scale-sequence helper lemmas -/

/-- Window sizes strictly increase for a positive cell size. -/
lemma wsF_lt (cfg : PmfConfig) (hc : 0 < cfg.cellSize) (i : ℕ) :
    wsF cfg i < wsF cfg (i + 1) := by
  unfold wsF
  by_cases he : cfg.exponential
  · simp only [he, if_true]
    have hp : (0 : ℚ) < 2 ^ i := pow_pos (by norm_num) i
    have h2 : (2 : ℚ) ^ (i + 1) = 2 * 2 ^ i := by rw [pow_succ]; ring
    have : (2 : ℚ) * 2 ^ i + 1 < 2 * 2 ^ (i + 1) + 1 := by rw [h2]; linarith
    exact mul_lt_mul_of_pos_left this hc
  · simp only [he, if_false]
    have : (2 : ℚ) * ((i : ℚ) + 1) * 2 + 1 < 2 * ((((i : ℕ) + 1 : ℕ) : ℚ) + 1) * 2 + 1 := by
      push_cast; linarith
    exact mul_lt_mul_of_pos_left this hc

/-- Successive window-size differences are non-decreasing. -/
lemma wsF_diff_mono (cfg : PmfConfig) (hc : 0 < cfg.cellSize) (i : ℕ) :
    wsF cfg (i + 1) - wsF cfg i ≤ wsF cfg (i + 2) - wsF cfg (i + 1) := by
  unfold wsF
  by_cases he : cfg.exponential
  · simp only [he, if_true]
    have hp : (0 : ℚ) < 2 ^ i := pow_pos (by norm_num) i
    have h1 : (2 : ℚ) ^ (i + 1) = 2 * 2 ^ i := by rw [pow_succ]; ring
    have h2 : (2 : ℚ) ^ (i + 2) = 4 * 2 ^ i := by
      rw [pow_succ, pow_succ]; ring
    rw [h1, h2]
    have hd : (2 : ℚ) * (2 * 2 ^ i) + 1 - (2 * 2 ^ i + 1) ≤
        2 * (4 * 2 ^ i) + 1 - (2 * (2 * 2 ^ i) + 1) := by linarith
    calc cfg.cellSize * (2 * (2 * 2 ^ i) + 1) - cfg.cellSize * (2 * 2 ^ i + 1)
        = cfg.cellSize * ((2 * (2 * 2 ^ i) + 1) - (2 * 2 ^ i + 1)) := by ring
      _ ≤ cfg.cellSize * ((2 * (4 * 2 ^ i) + 1) - (2 * (2 * 2 ^ i) + 1)) := by
          exact mul_le_mul_of_nonneg_left (by linarith) hc.le
      _ = cfg.cellSize * (2 * (4 * 2 ^ i) + 1) -
          cfg.cellSize * (2 * (2 * 2 ^ i) + 1) := by ring
  · simp only [he, if_false]
    push_cast
    ring_nf
    linarith

/-- Unclamped height thresholds are non-decreasing for nonnegative slope
and positive cell size. -/
lemma htRaw_mono (cfg : PmfConfig) (hc : 0 < cfg.cellSize)
    (hs : 0 ≤ cfg.slope) (i : ℕ) : htRaw cfg i ≤ htRaw cfg (i + 1) := by
  cases i with
  | zero =>
    show cfg.initialDistance ≤
      cfg.slope * (wsF cfg 1 - wsF cfg 0) * cfg.cellSize + cfg.initialDistance
    have hd : 0 ≤ wsF cfg 1 - wsF cfg 0 := le_of_lt (sub_pos.2 (wsF_lt cfg hc 0))
    have h1 : 0 ≤ cfg.slope * (wsF cfg 1 - wsF cfg 0) * cfg.cellSize :=
      mul_nonneg (mul_nonneg hs hd) hc.le
    linarith
  | succ j =>
    show cfg.slope * (wsF cfg (j + 1) - wsF cfg j) * cfg.cellSize +
        cfg.initialDistance ≤
      cfg.slope * (wsF cfg (j + 2) - wsF cfg (j + 1)) * cfg.cellSize +
        cfg.initialDistance
    have hd := wsF_diff_mono cfg hc j
    have h1 : cfg.slope * (wsF cfg (j + 1) - wsF cfg j) ≤
        cfg.slope * (wsF cfg (j + 2) - wsF cfg (j + 1)) :=
      mul_le_mul_of_nonneg_left hd hs
    have h2 := mul_le_mul_of_nonneg_right h1 hc.le
    linarith

/-- The clamp of PMFFilter.cpp lines 241-242 is a minimum with
max_distance. -/
lemma htF_eq_min (cfg : PmfConfig) (i : ℕ) :
    htF cfg i = min cfg.maxDistance (htRaw cfg i) := by
  unfold htF
  split
  · exact (min_eq_left (le_of_lt (by assumption))).symm
  · exact (min_eq_right (le_of_not_lt (by assumption))).symm

/-- Claim C8, amended: for configurations with a positive cell size and a
nonnegative slope, the window sizes strictly increase and the clamped
height thresholds are non-decreasing (a negative slope breaks threshold
monotonicity, see the counterexample). -/
theorem claim8_amended (cfg : PmfConfig) (hc : 0 < cfg.cellSize)
    (hs : 0 ≤ cfg.slope) :
    (∀ i, wsF cfg i < wsF cfg (i + 1)) ∧
    (∀ i, htF cfg i ≤ htF cfg (i + 1)) := by
  refine ⟨fun i => wsF_lt cfg hc i, fun i => ?_⟩
  rw [htF_eq_min, htF_eq_min]
  exact min_le_min (le_refl _) (htRaw_mono cfg hc hs i)

theorem claim8_witness :
    ((0 : ℚ) < pmfDefaults.cellSize ∧ (0 : ℚ) ≤ pmfDefaults.slope) ∧
    (wsF pmfDefaults 0 < wsF pmfDefaults 1 ∧
      htF pmfDefaults 0 ≤ htF pmfDefaults 1) :=
  ⟨⟨by norm_num [pmfDefaults], by norm_num [pmfDefaults]⟩,
   ⟨(claim8_amended pmfDefaults (by norm_num [pmfDefaults])
        (by norm_num [pmfDefaults])).1 0,
    (claim8_amended pmfDefaults (by norm_num [pmfDefaults])
        (by norm_num [pmfDefaults])).2 0⟩⟩

/-- Points kept by the ignore split come from the input unchanged. -/
lemma pmfKept_subset {pc : PmfPrepared} {input : View} {p : Point}
    (hp : p ∈ pmfKept pc input) : p ∈ input := by
  unfold pmfKept at hp
  cases h : pc.ignoreId with
  | none => rw [h] at hp; exact hp
  | some r => rw [h] at hp; exact (List.mem_filter.1 hp).1

/-- Claim C2, amended: the output view is the concatenation
ignored ++ nonlast ++ processGround(last); the ignored points are input
points with every field unchanged, but the other-than-last-return points
carry Classification overwritten to 1 (the neutral non-ground code is
assigned to every kept point before the last-return split), all other
fields unchanged. -/
theorem claim2_amended (pc : PmfPrepared) (input : View) (hne : input ≠ []) :
    pmfRun pc input =
      [pmfIgnored pc input ++ pmfNonlast pc input ++
        processGround pc (pmfLast pc input)] ∧
    (∀ p ∈ pmfIgnored pc input, p ∈ input) ∧
    (∀ p ∈ pmfNonlast pc input,
      ∃ q ∈ input, p = { q with classification := 1 }) := by
  refine ⟨?_, ?_, ?_⟩
  · cases input with
    | nil => exact absurd rfl hne
    | cons a as => rfl
  · intro p hp
    unfold pmfIgnored at hp
    cases h : pc.ignoreId with
    | none => rw [h] at hp; cases hp
    | some r =>
      rw [h] at hp
      exact (List.mem_filter.1 hp).1
  · intro p hp
    unfold pmfNonlast at hp
    by_cases hl : pc.lastOnly
    · rw [if_pos hl] at hp
      have hp2 : p ∈ pmfMarked pc input := (List.mem_filter.1 hp).1
      unfold pmfMarked at hp2
      obtain ⟨q, hq, hqe⟩ := List.mem_map.1 hp2
      exact ⟨q, pmfKept_subset hq, hqe.symm⟩
    · rw [if_neg hl] at hp
      cases hp

theorem claim2_witness :
    (([⟨0, 0, 0, 5, 1, 2⟩] : View) ≠ []) ∧
    (pmfRun ⟨pmfDefaults, none, true⟩ [⟨0, 0, 0, 5, 1, 2⟩] =
      [pmfIgnored ⟨pmfDefaults, none, true⟩ [⟨0, 0, 0, 5, 1, 2⟩] ++
        pmfNonlast ⟨pmfDefaults, none, true⟩ [⟨0, 0, 0, 5, 1, 2⟩] ++
        processGround ⟨pmfDefaults, none, true⟩
          (pmfLast ⟨pmfDefaults, none, true⟩ [⟨0, 0, 0, 5, 1, 2⟩])] ∧
     (∀ p ∈ pmfIgnored ⟨pmfDefaults, none, true⟩ [⟨0, 0, 0, 5, 1, 2⟩],
        p ∈ ([⟨0, 0, 0, 5, 1, 2⟩] : View)) ∧
     (∀ p ∈ pmfNonlast ⟨pmfDefaults, none, true⟩ [⟨0, 0, 0, 5, 1, 2⟩],
        ∃ q ∈ ([⟨0, 0, 0, 5, 1, 2⟩] : View),
          p = { q with classification := 1 })) :=
  ⟨by simp, claim2_amended ⟨pmfDefaults, none, true⟩ [⟨0, 0, 0, 5, 1, 2⟩] (by simp)⟩

/-! ### Vote-winner helper lemmas (std::max_element over the ordered map) -/

lemma pickMax_step (q : ℚ × ℕ) (qs : List (ℚ × ℕ)) (acc : ℚ × ℕ) :
    pickMax (q :: qs) acc = pickMax qs (if acc.2 < q.2 then q else acc) := rfl

lemma pickMax_mem (l : List (ℚ × ℕ)) (acc : ℚ × ℕ) :
    pickMax l acc = acc ∨ pickMax l acc ∈ l := by
  induction l generalizing acc with
  | nil => exact Or.inl rfl
  | cons p ps ih =>
    rw [pickMax_step]
    by_cases hlt : acc.2 < p.2
    · rw [if_pos hlt]
      rcases ih p with h | h
      · rw [h]; exact Or.inr (List.mem_cons_self p ps)
      · exact Or.inr (List.mem_cons_of_mem p h)
    · rw [if_neg hlt]
      rcases ih acc with h | h
      · exact Or.inl h
      · exact Or.inr (List.mem_cons_of_mem p h)

lemma pickMax_acc_le (l : List (ℚ × ℕ)) (acc : ℚ × ℕ) :
    acc.2 ≤ (pickMax l acc).2 := by
  induction l generalizing acc with
  | nil => exact le_refl _
  | cons p ps ih =>
    rw [pickMax_step]
    by_cases hlt : acc.2 < p.2
    · rw [if_pos hlt]; exact le_trans hlt.le (ih p)
    · rw [if_neg hlt]; exact ih acc

lemma pickMax_le (l : List (ℚ × ℕ)) (acc : ℚ × ℕ) :
    ∀ p ∈ l, p.2 ≤ (pickMax l acc).2 := by
  induction l generalizing acc with
  | nil => intro p hp; cases hp
  | cons q qs ih =>
    intro r hr
    rw [pickMax_step]
    by_cases hlt : acc.2 < q.2
    · rw [if_pos hlt]
      rcases List.mem_cons.1 hr with h | h
      · rw [h]; exact pickMax_acc_le qs q
      · exact ih q r h
    · rw [if_neg hlt]
      rcases List.mem_cons.1 hr with h | h
      · rw [h]; exact le_trans (le_of_not_lt hlt) (pickMax_acc_le qs acc)
      · exact ih acc r h

/-- The first-maximal-entry property of `std::max_element`: iterating in
strictly ascending key order, any entry tying the final count has a key
at least the winner's. -/
lemma pickMax_tie (l : List (ℚ × ℕ)) (acc : ℚ × ℕ)
    (hacc : ∀ p ∈ l, acc.1 < p.1)
    (hpw : List.Pairwise (fun a b => a.1 < b.1) l) :
    ∀ p, (p = acc ∨ p ∈ l) → p.2 = (pickMax l acc).2 →
      (pickMax l acc).1 ≤ p.1 := by
  induction l generalizing acc with
  | nil =>
    intro p hp _
    rcases hp with h | h
    · subst h; exact le_refl _
    · cases h
  | cons q qs ih =>
    intro p hp hp2
    obtain ⟨hqall, htail⟩ := List.pairwise_cons.1 hpw
    rw [pickMax_step] at hp2 ⊢
    by_cases hlt : acc.2 < q.2
    · rw [if_pos hlt] at hp2 ⊢
      rcases hp with h | h
      · exfalso
        have h1 := pickMax_acc_le qs q
        rw [h] at hp2
        omega
      · rcases List.mem_cons.1 h with h' | h'
        · exact ih q hqall htail p (Or.inl h') hp2
        · exact ih q hqall htail p (Or.inr h') hp2
    · rw [if_neg hlt] at hp2 ⊢
      have hall : ∀ r ∈ qs, acc.1 < r.1 := fun r hr =>
        hacc r (List.mem_cons_of_mem q hr)
      rcases hp with h | h
      · exact ih acc hall htail p (Or.inl h) hp2
      · rcases List.mem_cons.1 h with h' | h'
        · have h1 := pickMax_acc_le qs acc
          have hq2 : p.2 ≤ acc.2 := by rw [h']; exact le_of_not_lt hlt
          have h2 : acc.2 = (pickMax qs acc).2 := by omega
          have h3 := ih acc hall htail acc (Or.inl rfl) h2
          exact le_trans h3 (le_of_lt (hacc p h))
        · exact ih acc hall htail p (Or.inr h') hp2

/-- The vote keys enumerate exactly the distinct vote values. -/
lemma voteKeys_mem (ref : View) (ids : List ℕ) (x : ℚ) :
    x ∈ voteKeys ref ids ↔ x ∈ votesOf ref ids := by
  unfold voteKeys
  rw [(List.perm_insertionSort _ _).mem_iff, List.mem_dedup]

/-- The vote keys are pairwise strictly increasing. -/
lemma voteKeys_pairwise (ref : View) (ids : List ℕ) :
    List.Pairwise (· < ·) (voteKeys ref ids) := by
  have hsorted : List.Sorted (· ≤ ·) (voteKeys ref ids) :=
    List.sorted_insertionSort _ _
  have hnodup : (voteKeys ref ids).Nodup :=
    ((List.perm_insertionSort _ _).nodup_iff).2 (List.nodup_dedup _)
  exact (List.Pairwise.and hsorted hnodup).imp
    (fun h => lt_of_le_of_ne h.1 h.2)

/-- Claim C6: the winning value carries the maximal count over the
neighbor votes, and among the values tying for the maximal count it is
the smallest — the deterministic tie-break induced by the ascending key
order of `std::map` together with `std::max_element` keeping the first
maximal entry. -/
theorem claim6_winner (ref : View) (ids : List ℕ) (h : ids ≠ []) :
    (voteWinner ref ids).1 ∈ votesOf ref ids ∧
    (voteWinner ref ids).2 = tally ref ids (voteWinner ref ids).1 ∧
    (∀ v ∈ votesOf ref ids, tally ref ids v ≤ (voteWinner ref ids).2) ∧
    (∀ v ∈ votesOf ref ids, tally ref ids v = (voteWinner ref ids).2 →
      (voteWinner ref ids).1 ≤ v) := by
  have hvne : votesOf ref ids ≠ [] := by
    cases ids with
    | nil => exact absurd rfl h
    | cons a as => simp [votesOf]
  have hkne : voteKeys ref ids ≠ [] := by
    intro hk
    obtain ⟨x, hx⟩ := List.exists_mem_of_ne_nil _ hvne
    have := (voteKeys_mem ref ids x).2 hx
    rw [hk] at this
    cases this
  cases hk : voteKeys ref ids with
  | nil => exact absurd hk hkne
  | cons v vs =>
    have hpw : List.Pairwise (· < ·) (v :: vs) := hk ▸ voteKeys_pairwise ref ids
    obtain ⟨hvlt, hpwvs⟩ := List.pairwise_cons.1 hpw
    have hwin : voteWinner ref ids =
        pickMax (vs.map (fun w => (w, tally ref ids w))) (v, tally ref ids v) := by
      unfold voteWinner
      rw [hk]
    set L := vs.map (fun w => (w, tally ref ids w)) with hL
    set acc : ℚ × ℕ := (v, tally ref ids v) with hacc
    have haccl : ∀ p ∈ L, acc.1 < p.1 := by
      intro p hp
      obtain ⟨w, hw, hwe⟩ := List.mem_map.1 hp
      rw [← hwe]
      exact hvlt w hw
    have hLpw : List.Pairwise (fun a b : ℚ × ℕ => a.1 < b.1) L :=
      List.pairwise_map.2 hpwvs
    have hshape : (voteWinner ref ids).1 ∈ v :: vs ∧
        (voteWinner ref ids).2 = tally ref ids (voteWinner ref ids).1 := by
      rcases pickMax_mem L acc with hm | hm
      · rw [hwin, hm]
        exact ⟨List.mem_cons_self v vs, rfl⟩
      · obtain ⟨w, hw, hwe⟩ := List.mem_map.1 hm
        rw [hwin, ← hwe]
        exact ⟨List.mem_cons_of_mem v hw, rfl⟩
    have hkeys_of_mem : ∀ u ∈ votesOf ref ids, u ∈ v :: vs := by
      intro u hu
      exact hk ▸ (voteKeys_mem ref ids u).2 hu
    refine ⟨?_, hshape.2, ?_, ?_⟩
    · exact (voteKeys_mem ref ids _).1 (hk ▸ hshape.1)
    · intro u hu
      rcases List.mem_cons.1 (hkeys_of_mem u hu) with h' | h'
      · subst h'
        have := pickMax_acc_le L acc
        rw [hwin]
        exact this
      · have hmem : (u, tally ref ids u) ∈ L :=
          List.mem_map.2 ⟨u, h', rfl⟩
        have := pickMax_le L acc _ hmem
        rw [hwin]
        exact this
    · intro u hu htie
      rcases List.mem_cons.1 (hkeys_of_mem u hu) with h' | h'
      · subst h'
        have := pickMax_tie L acc haccl hLpw acc (Or.inl rfl)
          (by rw [← hwin]; exact htie.symm ▸ rfl)
        rw [hwin]
        exact this
      · have hmem : (u, tally ref ids u) ∈ L :=
          List.mem_map.2 ⟨u, h', rfl⟩
        have := pickMax_tie L acc haccl hLpw (u, tally ref ids u)
          (Or.inr hmem) (by rw [← hwin]; exact htie)
        rw [hwin]
        exact this

theorem claim6_witness :
    (([0] : List ℕ) ≠ []) ∧
    ((voteWinner [⟨0, 0, 0, 5, 1, 1⟩] [0]).1 ∈ votesOf [⟨0, 0, 0, 5, 1, 1⟩] [0] ∧
     (voteWinner [⟨0, 0, 0, 5, 1, 1⟩] [0]).2 =
        tally [⟨0, 0, 0, 5, 1, 1⟩] [0] (voteWinner [⟨0, 0, 0, 5, 1, 1⟩] [0]).1 ∧
     (∀ v ∈ votesOf [⟨0, 0, 0, 5, 1, 1⟩] [0],
        tally [⟨0, 0, 0, 5, 1, 1⟩] [0] v ≤ (voteWinner [⟨0, 0, 0, 5, 1, 1⟩] [0]).2) ∧
     (∀ v ∈ votesOf [⟨0, 0, 0, 5, 1, 1⟩] [0],
        tally [⟨0, 0, 0, 5, 1, 1⟩] [0] v = (voteWinner [⟨0, 0, 0, 5, 1, 1⟩] [0]).2 →
          (voteWinner [⟨0, 0, 0, 5, 1, 1⟩] [0]).1 ≤ v)) :=
  ⟨by simp, claim6_winner [⟨0, 0, 0, 5, 1, 1⟩] [0] (by simp)⟩

/-! ### Domain-scan helper lemmas -/

/-- The scan loop realizes first-match-wins: it acts exactly as `find?`
over the ranges in their list order. -/
lemma scanRanges_eq (ranges : List RRange) (ref view : View) (k i : ℕ) :
    scanRanges ranges ref view k i =
      match ranges.find?
          (fun r => r.valuePasses ((view.getD i default).dimVal r.id)) with
      | some _ => doOneNoDomain ref view k i
      | none => view := by
  induction ranges with
  | nil => rfl
  | cons r rs ih =>
    show (if r.valuePasses ((view.getD i default).dimVal r.id) then
        doOneNoDomain ref view k i else scanRanges rs ref view k i) = _
    by_cases hp : r.valuePasses ((view.getD i default).dimVal r.id) = true
    · rw [if_pos hp]
      have hf : List.find?
          (fun s => s.valuePasses ((view.getD i default).dimVal s.id))
          (r :: rs) = some r := List.find?_cons_of_pos rs hp
      rw [hf]
    · rw [if_neg hp]
      have hf : List.find?
          (fun s => s.valuePasses ((view.getD i default).dimVal s.id))
          (r :: rs) =
        List.find?
          (fun s => s.valuePasses ((view.getD i default).dimVal s.id)) rs :=
        List.find?_cons_of_neg rs hp
      rw [hf]
      exact ih

/-- Claim C7: the ranges used by the filter are the resolved ranges
sorted by dimension identifier, and the per-point procedure is exactly
first-match-wins — with no ranges the point is voted on; otherwise the
vote fires exactly at the first passing range; a point passing no range
is left untouched. -/
theorem claim7_eligibility :
    (∀ cfg layout rs, knnSetup cfg layout = .ok rs →
      List.Sorted rangeLE rs) ∧
    (∀ ranges ref view k i,
      doOne ranges ref view k i = eligibleStep ranges ref view k i) := by
  constructor
  · intro cfg layout rs h
    unfold knnSetup at h
    cases h1 : knnInitialize cfg with
    | error e =>
      rw [h1] at h
      simp only [Bind.bind, Except.bind] at h
      cases h
    | ok rl =>
      rw [h1] at h
      simp only [Bind.bind, Except.bind] at h
      unfold knnPrepared at h
      cases h2 : resolveAll layout rl with
      | error e =>
        rw [h2] at h
        simp only [Except.map] at h
        cases h
      | ok l =>
        rw [h2] at h
        simp only [Except.map, Except.ok.injEq] at h
        rw [← h]
        exact List.sorted_insertionSort rangeLE l
  · intro ranges ref view k i
    unfold doOne eligibleStep
    cases ranges with
    | nil => rfl
    | cons r rs =>
      simp only [List.isEmpty_cons, if_neg, Bool.false_eq_true,
        not_false_eq_true]
      exact scanRanges_eq (r :: rs) ref view k i

theorem claim7_witness :
    List.Sorted rangeLE [⟨dimClassification, 5, 6, true, false⟩] ∧
    doOne [] [] [] 1 0 = eligibleStep [] [] [] 1 0 :=
  ⟨claim7_eligibility.1 ⟨["Classification[5,6)"], 3, none⟩ stdLayout
      [⟨dimClassification, 5, 6, true, false⟩] (by rfl),
   claim7_eligibility.2 [] [] [] 1 0⟩

/-! ### Setup-error helper lemmas -/

/-- A malformed domain text makes the parse loop fail. -/
lemma parseAll_error {ts : List String} {t : String} (ht : t ∈ ts)
    (hp : parseRange t = none) : ∃ e, parseAll ts = .error e := by
  induction ts with
  | nil => cases ht
  | cons a as ih =>
    cases hpa : parseRange a with
    | none =>
      exact ⟨.badDomainText a, by simp only [parseAll, hpa]⟩
    | some r =>
      rcases List.mem_cons.1 ht with h | h
      · subst h
        rw [hp] at hpa
        cases hpa
      · obtain ⟨e, he⟩ := ih h
        exact ⟨e, by simp only [parseAll, hpa, he, Except.map]⟩

/-- An unresolvable dimension name makes the resolve loop fail. -/
lemma resolveAll_error {layout : Layout} {rs : List RawRange} {r : RawRange}
    (hr : r ∈ rs) (hn : layout.findDim r.name = none) :
    ∃ e, resolveAll layout rs = .error e := by
  induction rs with
  | nil => cases hr
  | cons a as ih =>
    cases hfa : layout.findDim a.name with
    | none =>
      exact ⟨.badDimName a.name, by simp only [resolveAll, hfa]⟩
    | some d =>
      rcases List.mem_cons.1 hr with h | h
      · subst h
        rw [hn] at hfa
        cases hfa
      · obtain ⟨e, he⟩ := ih h
        exact ⟨e, by simp only [resolveAll, hfa, he, Except.map]⟩

/-- A setup failure short-circuits the whole invocation. -/
lemma knnRun_error {cfg : KnnConfig} {layout : Layout} (view : View)
    {e : ConfigError} (he : knnSetup cfg layout = .error e) :
    knnRun cfg layout view = .error e := by
  unfold knnRun
  rw [he]
  rfl

/-- An initialize failure is a setup failure. -/
lemma knnSetup_error_init {cfg : KnnConfig} (layout : Layout) {e : ConfigError}
    (he : knnInitialize cfg = .error e) :
    knnSetup cfg layout = .error e := by
  unfold knnSetup
  rw [he]
  rfl

/-- Claim C9: a malformed domain text, k < 1, or an unresolvable domain
dimension name each force the whole invocation to fail with a
configuration error — the run yields `.error` and no output view, so no
point of the set being classified is mutated. -/
theorem claim9_config (cfg : KnnConfig) (layout : Layout) (view : View) :
    (cfg.k < 1 → ∃ e, knnRun cfg layout view = .error e) ∧
    ((∃ t ∈ cfg.domainSpec, parseRange t = none) →
      ∃ e, knnRun cfg layout view = .error e) ∧
    (∀ rl, parseAll cfg.domainSpec = .ok rl →
      (∃ r ∈ rl, layout.findDim r.name = none) →
      ∃ e, knnRun cfg layout view = .error e) ∧
    (∀ e, knnSetup cfg layout = .error e →
      knnRun cfg layout view = .error e) := by
  refine ⟨?_, ?_, ?_, fun e he => knnRun_error view he⟩
  · intro hk
    cases hpa : parseAll cfg.domainSpec with
    | error e =>
      refine ⟨e, knnRun_error view (knnSetup_error_init layout ?_)⟩
      unfold knnInitialize
      rw [hpa]
      rfl
    | ok rl =>
      refine ⟨.badK cfg.k, knnRun_error view (knnSetup_error_init layout ?_)⟩
      unfold knnInitialize
      rw [hpa]
      simp only [Bind.bind, Except.bind]
      rw [if_pos hk]
  · intro ⟨t, ht, hp⟩
    obtain ⟨e, he⟩ := parseAll_error ht hp
    refine ⟨e, knnRun_error view (knnSetup_error_init layout ?_)⟩
    unfold knnInitialize
    rw [he]
    rfl
  · intro rl hok ⟨r, hr, hn⟩
    by_cases hk : cfg.k < 1
    · refine ⟨.badK cfg.k, knnRun_error view (knnSetup_error_init layout ?_)⟩
      unfold knnInitialize
      rw [hok]
      simp only [Bind.bind, Except.bind]
      rw [if_pos hk]
    · obtain ⟨e, he⟩ := resolveAll_error hr hn
      refine ⟨e, knnRun_error view ?_⟩
      unfold knnSetup knnInitialize
      rw [hok]
      simp only [Bind.bind, Except.bind]
      rw [if_neg hk]
      show Except.map (fun l => List.insertionSort rangeLE l)
        (resolveAll layout rl) = Except.error e
      rw [he]
      rfl

theorem claim9_witness :
    ((⟨[], 0, none⟩ : KnnConfig).k < 1) ∧
    (∃ e, knnRun ⟨[], 0, none⟩ stdLayout [] = .error e) :=
  ⟨by norm_num, (claim9_config ⟨[], 0, none⟩ stdLayout []).1 (by norm_num)⟩

/-- Reading back the element just written by `List.set`. -/
lemma getD_set_self (l : List Point) (i : ℕ) (a : Point) :
    (l.set i a).getD i default = if i < l.length then a else default := by
  by_cases h : i < l.length
  · rw [if_pos h, List.getD_eq_getElem?_getD, List.getElem?_set_self h]
    rfl
  · rw [if_neg h, List.getD_eq_getElem?_getD, List.getElem?_eq_none]
    · rfl
    · rw [List.length_set]; omega

/-- Claim C1, amended: the point's classification is overwritten with the
winning vote value exactly when the winning count strictly exceeds half
the number of returned neighbor identifiers (min(k, n) of them, the
code's `iSrc.size()/2.0` threshold) and the winner differs from the
current value; otherwise it is unchanged. -/
theorem claim1_amended (ref view : View) (k i : ℕ) (hi : i < view.length) :
    ((doOneNoDomain ref view k i).getD i default).classification =
      (if ((voteWinner ref (kNearest ref (view.getD i default) k)).2 : ℚ) >
            ((kNearest ref (view.getD i default) k).length : ℚ) / 2 ∧
          (view.getD i default).classification ≠
            (voteWinner ref (kNearest ref (view.getD i default) k)).1
        then (voteWinner ref (kNearest ref (view.getD i default) k)).1
        else (view.getD i default).classification) := by
  simp only [doOneNoDomain]
  split
  · rw [getD_set_self, if_pos hi]
  · rfl

theorem claim1_witness :
    (0 < ([⟨0, 0, 0, 5, 1, 1⟩] : View).length) ∧
    ((doOneNoDomain [⟨0, 0, 0, 5, 1, 1⟩] [⟨0, 0, 0, 5, 1, 1⟩] 1 0).getD 0
        default).classification =
      (if ((voteWinner [⟨0, 0, 0, 5, 1, 1⟩]
              (kNearest [⟨0, 0, 0, 5, 1, 1⟩]
                (([⟨0, 0, 0, 5, 1, 1⟩] : View).getD 0 default) 1)).2 : ℚ) >
            ((kNearest [⟨0, 0, 0, 5, 1, 1⟩]
                (([⟨0, 0, 0, 5, 1, 1⟩] : View).getD 0 default) 1).length : ℚ) / 2 ∧
          (([⟨0, 0, 0, 5, 1, 1⟩] : View).getD 0 default).classification ≠
            (voteWinner [⟨0, 0, 0, 5, 1, 1⟩]
              (kNearest [⟨0, 0, 0, 5, 1, 1⟩]
                (([⟨0, 0, 0, 5, 1, 1⟩] : View).getD 0 default) 1)).1
        then (voteWinner [⟨0, 0, 0, 5, 1, 1⟩]
              (kNearest [⟨0, 0, 0, 5, 1, 1⟩]
                (([⟨0, 0, 0, 5, 1, 1⟩] : View).getD 0 default) 1)).1
        else (([⟨0, 0, 0, 5, 1, 1⟩] : View).getD 0 default).classification) :=
  ⟨by simp, claim1_amended [⟨0, 0, 0, 5, 1, 1⟩] [⟨0, 0, 0, 5, 1, 1⟩] 1 0 (by simp)⟩

/-! ### Candidate-mode loop-to-map equivalence helpers -/

lemma doOneNoDomain_shape (ref view : View) (k i : ℕ) :
    doOneNoDomain ref view k i = view ∨
    ∃ a, doOneNoDomain ref view k i = view.set i a := by
  simp only [doOneNoDomain]
  split
  · exact Or.inr ⟨_, rfl⟩
  · exact Or.inl rfl

lemma scanRanges_shape (ranges : List RRange) (ref view : View) (k i : ℕ) :
    scanRanges ranges ref view k i = view ∨
    scanRanges ranges ref view k i = doOneNoDomain ref view k i := by
  induction ranges with
  | nil => exact Or.inl rfl
  | cons r rs ih =>
    simp only [scanRanges]
    split
    · exact Or.inr rfl
    · exact ih

/-- One step of the filter either leaves the view unchanged or writes the
single point it processes. -/
lemma doOne_result (ranges : List RRange) (ref view : View) (k i : ℕ) :
    doOne ranges ref view k i = view ∨
    ∃ a, doOne ranges ref view k i = view.set i a := by
  unfold doOne
  split
  · exact doOneNoDomain_shape ref view k i
  · rcases scanRanges_shape ranges ref view k i with h | h
    · exact Or.inl h
    · rw [h]
      exact doOneNoDomain_shape ref view k i

lemma doOne_length (ranges : List RRange) (ref view : View) (k i : ℕ) :
    (doOne ranges ref view k i).length = view.length := by
  rcases doOne_result ranges ref view k i with h | ⟨a, h⟩
  · rw [h]
  · rw [h, List.length_set]

/-- A step touches no point other than its own index. -/
lemma doOne_getD_ne (ranges : List RRange) (ref view : View) (k : ℕ)
    {i j : ℕ} (hne : j ≠ i) :
    (doOne ranges ref view k i).getD j default = view.getD j default := by
  rcases doOne_result ranges ref view k i with h | ⟨a, h⟩
  · rw [h]
  · rw [h, List.getD_eq_getElem?_getD, List.getElem?_set_ne hne.symm,
      ← List.getD_eq_getElem?_getD]

/-- In candidate mode a step's result at its own index depends on the
current view only through that point's own record. -/
lemma doOneNoDomain_getD_congr {ref : View} {k i : ℕ} {v w : View}
    (hlen : v.length = w.length)
    (hgd : v.getD i default = w.getD i default) :
    (doOneNoDomain ref v k i).getD i default =
      (doOneNoDomain ref w k i).getD i default := by
  simp only [doOneNoDomain]
  rw [hgd]
  split
  · rw [getD_set_self, getD_set_self, hlen]
  · exact hgd

lemma doOne_getD_congr {ranges : List RRange} {ref : View} {k i : ℕ}
    {v w : View} (hlen : v.length = w.length)
    (hgd : v.getD i default = w.getD i default) :
    (doOne ranges ref v k i).getD i default =
      (doOne ranges ref w k i).getD i default := by
  unfold doOne
  split
  · exact doOneNoDomain_getD_congr hlen hgd
  · rw [scanRanges_eq, scanRanges_eq]
    simp only [hgd]
    cases hX : List.find?
        (fun r => r.valuePasses ((w.getD i default).dimVal r.id)) ranges with
    | some r =>
      simp only [hX]
      exact doOneNoDomain_getD_congr hlen hgd
    | none =>
      simp only [hX]
      exact hgd

lemma getElem_eq_getD {l : List Point} {n : ℕ} (h : n < l.length) :
    l[n] = l.getD n default := by
  rw [List.getD_eq_getElem?_getD, List.getElem?_eq_getElem h]
  rfl

/-- Claim C5, amended: in candidate mode — where the reference set is a
separate immutable view — the sequential in-place loop over ascending
point identifiers computes exactly the order-independent per-point map
over the initial state.  (In self mode the counterexample shows the two
differ, because later points read earlier reassignments.) -/
theorem claim5_amended (ranges : List RRange) (k : ℕ) (cand view : View) :
    knnFilterCand ranges k cand view = knnSnapshotCand ranges k cand view := by
  have main : ∀ m,
      ((List.range m).foldl (fun v i => doOne ranges cand v k i) view).length
          = view.length ∧
      (∀ j, m ≤ j →
        ((List.range m).foldl (fun v i => doOne ranges cand v k i) view).getD
            j default = view.getD j default) ∧
      (∀ j, j < m →
        ((List.range m).foldl (fun v i => doOne ranges cand v k i) view).getD
            j default = (doOne ranges cand view k j).getD j default) := by
    intro m
    induction m with
    | zero =>
      exact ⟨rfl, fun j _ => rfl, fun j hj => absurd hj (Nat.not_lt_zero j)⟩
    | succ n ih =>
      obtain ⟨ihlen, ihge, ihlt⟩ := ih
      rw [List.range_succ, List.foldl_append]
      simp only [List.foldl_cons, List.foldl_nil]
      refine ⟨?_, ?_, ?_⟩
      · rw [doOne_length]
        exact ihlen
      · intro j hj
        rw [doOne_getD_ne _ _ _ _ (by omega : j ≠ n)]
        exact ihge j (by omega)
      · intro j hj
        by_cases hje : j = n
        · subst hje
          exact doOne_getD_congr ihlen (ihge j (le_refl j))
        · rw [doOne_getD_ne _ _ _ _ hje]
          exact ihlt j (by omega)
  apply List.ext_getElem
  · show (knnFilterCand ranges k cand view).length =
      (knnSnapshotCand ranges k cand view).length
    unfold knnFilterCand knnSnapshotCand
    rw [(main view.length).1, List.length_map, List.length_range]
  · intro n h1 h2
    have hn : n < view.length := by
      have hlen1 : (knnFilterCand ranges k cand view).length = view.length :=
        (main view.length).1
      rw [← hlen1]
      exact h1
    have hR : (knnSnapshotCand ranges k cand view)[n] =
        (doOne ranges cand view k n).getD n default := by
      unfold knnSnapshotCand
      rw [List.getElem_map, List.getElem_range]
    rw [hR, getElem_eq_getD h1]
    exact (main view.length).2.2 n hn

end PDAL
